import Mathlib

/-!
Verification of gammazero/channelqueue (channelqueue.go, current version:
the options-based API with sync.Once close protection).

The Go program moves items from an input channel to an output channel
through a deque owned by a single coordinator goroutine (bufferData,
ringBufferData, or oneBufferData).  We embed:

* construction (New, NewRing, WithCapacity, WithInput, WithOutput) as pure
  functions over a configuration record, with channel allocation made
  explicit (each Go `make(chan T)` yields a distinct fresh channel);
* each coordinator loop as a step function over its local state.  One loop
  iteration services exactly one ready `select` case, so a scheduling of the
  concurrent system is a list of events; the step function returns `none`
  when the corresponding case is not selectable (channel nil / not ready),
  so a list of events on which a run succeeds is exactly a feasible
  scheduling of the Go program;
* Close / closeOnce as a function on a two-flag state where closing an
  already-closed Go channel is the failure case (Go panics there).
-/

namespace ChannelQueue

/-- A Go channel value, identified by where it came from: `supplied n` is a
channel passed in by the caller, `fresh n` is the result of the n-th
`make(chan T)` executed during construction.  Distinct constructors model
that `make` never returns an existing channel. -/
inductive Chan where
  | supplied (id : Nat)
  | fresh (id : Nat)
deriving DecidableEq, Repr

/-- Which coordinator goroutine a constructor starts: `go cq.bufferData()`,
`go cq.ringBufferData()`, or `go cq.oneBufferData()`. -/
inductive Policy where
  | fifo
  | ring
  | one
deriving DecidableEq, Repr

/-- The ChannelQueue struct fields set during construction, before the
`input`/`output` nil checks fill them in: `none` is a nil Go channel. -/
structure PreCQ where
  input : Option Chan
  output : Option Chan
  capacity : Int
deriving DecidableEq, Repr

/-- The fully constructed ChannelQueue handle: all three channels non-nil,
capacity normalized, plus the coordinator goroutine that was started. -/
structure CQ where
  input : Chan
  output : Chan
  length : Chan
  capacity : Int
  policy : Policy
deriving DecidableEq, Repr

/-- WithCapacity (channelqueue.go lines 26-33): `if n < 1 { n = -1 };
c.capacity = n`. -/
def withCapacity (n : Int) : PreCQ → PreCQ :=
  fun c => { c with capacity := if n < 1 then -1 else n }

/-- WithInput (lines 44-50): `if in != nil { c.input = in }`. -/
def withInput (i : Option Chan) : PreCQ → PreCQ :=
  fun c =>
    match i with
    | some ch => { c with input := some ch }
    | none => c

/-- WithOutput (lines 61-67): `if out != nil { c.output = out }`. -/
def withOutput (o : Option Chan) : PreCQ → PreCQ :=
  fun c =>
    match o with
    | some ch => { c with output := some ch }
    | none => c

/-- Apply the construction options in order, as the `for _, opt := range
options { opt(cq) }` loop does. -/
def applyOpts (opts : List (PreCQ → PreCQ)) (c : PreCQ) : PreCQ :=
  opts.foldl (fun c o => o c) c

/-- New (lines 71-87).  `k` is the next fresh-channel id; the length channel
is made in the struct literal, then options run, then nil input/output get
fresh channels.  Returns the handle and the next unused fresh id. -/
def new (k : Nat) (opts : List (PreCQ → PreCQ)) : CQ × Nat :=
  let lenCh := Chan.fresh k
  let c := applyOpts opts ⟨none, none, -1⟩
  let inAlloc : Chan × Nat :=
    match c.input with
    | some ch => (ch, k + 1)
    | none => (Chan.fresh (k + 1), k + 2)
  let outAlloc : Chan × Nat :=
    match c.output with
    | some ch => (ch, inAlloc.2)
    | none => (Chan.fresh inAlloc.2, inAlloc.2 + 1)
  ({ input := inAlloc.1, output := outAlloc.1, length := lenCh,
     capacity := c.capacity, policy := Policy.fifo }, outAlloc.2)

/-- NewRing (lines 92-116).  With capacity < 1 it delegates:
`return New(WithInput[T](cq.input))` — note only the input is forwarded.
Otherwise it fills nil channels and picks oneBufferData for capacity 1,
ringBufferData for larger capacities. -/
def newRing (k : Nat) (opts : List (PreCQ → PreCQ)) : CQ × Nat :=
  let c := applyOpts opts ⟨none, none, -1⟩
  if c.capacity < 1 then
    new (k + 1) [withInput c.input]
  else
    let lenCh := Chan.fresh k
    let inAlloc : Chan × Nat :=
      match c.input with
      | some ch => (ch, k + 1)
      | none => (Chan.fresh (k + 1), k + 2)
    let outAlloc : Chan × Nat :=
      match c.output with
      | some ch => (ch, inAlloc.2)
      | none => (Chan.fresh inAlloc.2, inAlloc.2 + 1)
    ({ input := inAlloc.1, output := outAlloc.1, length := lenCh,
       capacity := c.capacity,
       policy := if c.capacity = 1 then Policy.one else Policy.ring },
     outAlloc.2)

/-- Cap (lines 134-136): returns the capacity field. -/
def capOf (cq : CQ) : Int := cq.capacity

/-- State of the Close path (lines 142-146): whether `closeOnce` has fired
and whether the input channel has been closed. -/
structure CloseState where
  onceDone : Bool
  inputClosed : Bool
deriving DecidableEq, Repr

/-- Go `close(ch)`: panics (here `none`) when the channel is already
closed, otherwise marks it closed. -/
def chanClose (closed : Bool) : Option Bool :=
  if closed then none else some true

/-- Close (lines 142-146): `cq.closeOnce.Do(func() { close(cq.input) })`.
The body runs only the first time; `none` would mean a panic escaped. -/
def closeCQ (s : CloseState) : Option CloseState :=
  if s.onceDone then some s
  else (chanClose s.inputClosed).map (fun c => ⟨true, c⟩)

/-- Calling Close n times in sequence, stopping on a panic. -/
def closeN : Nat → CloseState → Option CloseState
  | 0, s => some s
  | n + 1, s => (closeCQ s).bind (closeN n)

/-- One `select` case serviced by a coordinator loop iteration:
`recv x` is `elem, open := <-input` with open=true, `closeInput` is the same
case with open=false, `send` is `output <- next`, `lenQ` is
`cq.length <- buffer.Len()`. -/
inductive Ev (T : Type) where
  | recv (x : T)
  | closeInput
  | send
  | lenQ
deriving DecidableEq, Repr

/-- What the outside world sees from one loop iteration: an item delivered
on the output channel, or a length reply on the length channel. -/
inductive Obs (T : Type) where
  | item (x : T)
  | len (n : Nat)
deriving DecidableEq, Repr

/-- Local state of bufferData / ringBufferData: the deque contents (front at
the head of the list) and whether the input channel is still open
(`inputChan != nil` in bufferData, `input != nil` absent backpressure in
ringBufferData). -/
structure BufState (T : Type) where
  buffer : List T
  inputOpen : Bool
deriving DecidableEq, Repr

/-- State at goroutine start: empty deque, input channel open. -/
def bufInit {T : Type} : BufState T := ⟨[], true⟩

/-- Whether bufferData's local `input` variable is non-nil, i.e. the input
case is selectable (lines 192-199): when the capacity is not -1 and the
buffer has reached it, `input = nil`; otherwise `input = inputChan`, which
is nil exactly when the input channel was seen closed. -/
def fifoInputSel (cap : Int) (s : BufState T) : Bool :=
  s.inputOpen && (cap == -1 || (s.buffer.length : Int) < cap)

/-- Whether the output case is selectable (lines 182-190): `output` is set
to nil when the buffer is empty, to `cq.output` otherwise. -/
def outputSel (s : BufState T) : Bool := !s.buffer.isEmpty

/-- One iteration of the bufferData loop body (lines 165-199), servicing
the given event; `none` when that select case is not selectable. -/
def fifoStep (cap : Int) (s : BufState T) :
    Ev T → Option (BufState T × Option (Obs T))
  | Ev.recv x =>
      if fifoInputSel cap s then
        some ({ s with buffer := s.buffer ++ [x] }, none)
      else none
  | Ev.closeInput =>
      if fifoInputSel cap s then
        some ({ s with inputOpen := false }, none)
      else none
  | Ev.send =>
      match s.buffer with
      | [] => none
      | x :: rest => some ({ s with buffer := rest }, some (Obs.item x))
  | Ev.lenQ => some (s, some (Obs.len s.buffer.length))

/-- PushBack then conditional PopFront of ringBufferData (lines 220-223):
`buffer.PushBack(elem); if buffer.Len() > cq.capacity { buffer.PopFront() }`. -/
def ringPush (cap : Int) (b : List T) (x : T) : List T :=
  let b2 := b ++ [x]
  if cap < (b2.length : Int) then b2.tail else b2

/-- One iteration of the ringBufferData loop body (lines 215-242): like
fifoStep but the input case is selectable whenever the channel is open
(no backpressure), and a push past capacity discards the front item. -/
def ringStep (cap : Int) (s : BufState T) :
    Ev T → Option (BufState T × Option (Obs T))
  | Ev.recv x =>
      if s.inputOpen then
        some ({ s with buffer := ringPush cap s.buffer x }, none)
      else none
  | Ev.closeInput =>
      if s.inputOpen then
        some ({ s with inputOpen := false }, none)
      else none
  | Ev.send =>
      match s.buffer with
      | [] => none
      | x :: rest => some ({ s with buffer := rest }, some (Obs.item x))
  | Ev.lenQ => some (s, some (Obs.len s.buffer.length))

/-- Local state of oneBufferData: the single slot (`some x` when
`bufLen == 1` with `next == x`; `none` when `bufLen == 0` and `next` was
reset to the zero value) and whether the input channel is open.  The
`output` variable of the loop is non-nil exactly when the slot is full: it
is set together with `bufLen = 1` on receive and cleared together with
`bufLen = 0` on send. -/
structure OneState (T : Type) where
  slot : Option T
  inputOpen : Bool
deriving DecidableEq, Repr

/-- oneBufferData start state: empty slot, input open. -/
def oneInit {T : Type} : OneState T := ⟨none, true⟩

/-- One iteration of the oneBufferData loop body (lines 256-276). -/
def oneStep (s : OneState T) : Ev T → Option (OneState T × Option (Obs T))
  | Ev.recv x =>
      if s.inputOpen then some ({ s with slot := some x }, none) else none
  | Ev.closeInput =>
      if s.inputOpen then some ({ s with inputOpen := false }, none) else none
  | Ev.send =>
      match s.slot with
      | none => none
      | some x => some ({ s with slot := none }, some (Obs.item x))
  | Ev.lenQ =>
      some (s, some (Obs.len (match s.slot with | none => 0 | some _ => 1)))

/-- Run a coordinator loop over a scheduling: service the events in order,
collecting the observations; `none` when some event was not selectable at
its turn, i.e. the scheduling is infeasible for the Go program. -/
def runM {T S : Type} (step : S → Ev T → Option (S × Option (Obs T))) :
    S → List (Ev T) → Option (S × List (Obs T))
  | s, [] => some (s, [])
  | s, e :: es =>
    (step s e).bind fun p =>
      (runM step p.1 es).map fun q => (q.1, p.2.toList ++ q.2)

/-- The `for input != nil || output != nil` guard of bufferData (line
165), in terms of the state at the end of an iteration. -/
def fifoGuard (cap : Int) (s : BufState T) : Bool :=
  fifoInputSel cap s || outputSel s

/-- The loop guard of ringBufferData: input selectable iff open. -/
def ringGuard (s : BufState T) : Bool := s.inputOpen || outputSel s

/-- The loop guard of oneBufferData: input open or slot occupied. -/
def oneGuard (s : OneState T) : Bool := s.inputOpen || s.slot.isSome

/-- What a coordinator does after its loop exits (lines 202-203):
`close(cq.output); close(cq.length)`, unconditionally. -/
structure ExitActions where
  outputClosed : Bool
  lengthClosed : Bool
deriving DecidableEq, Repr

/-- Run bufferData over a scheduling all the way to goroutine exit: the
run must succeed and end with the loop guard false, after which the
output and length channels are closed. -/
def fifoRunToExit (cap : Int) (s : BufState T) (es : List (Ev T)) :
    Option (List (Obs T) × ExitActions) :=
  (runM (fifoStep cap) s es).bind fun p =>
    if fifoGuard cap p.1 then none else some (p.2, ⟨true, true⟩)

/-- A Len() call (lines 129-131) made after the coordinator exited:
`<-cq.length` on the closed length channel returns the zero value 0
immediately; on an open channel with no coordinator it would block
(`none`). -/
def lenAfterExit (ex : ExitActions) : Option Nat :=
  if ex.lengthClosed then some 0 else none

/-- The items received from the input channel during a scheduling, in
order. -/
def recvs {T : Type} : List (Ev T) → List T
  | [] => []
  | Ev.recv x :: es => x :: recvs es
  | _ :: es => recvs es

/-- The items delivered on the output channel, in order. -/
def items {T : Type} : List (Obs T) → List T
  | [] => []
  | Obs.item x :: os => x :: items os
  | _ :: os => items os

/-- The single slot of oneBufferData viewed as a deque of length at most
one: the abstraction relating oneBufferData's state to ringBufferData's. -/
def oneAbs {T : Type} (s : OneState T) : BufState T :=
  ⟨s.slot.toList, s.inputOpen⟩

/-- The scheduling induced at the coordinator by Shutdown (lines 150-154):
Close() closes the input channel, and the drain loop keeps accepting output
items.  When backpressure currently has the input case disabled, one item
must be drained first (re-enabling the input case) before the coordinator
can observe the closure; afterwards the rest of the buffer is drained. -/
def shutdownEvents (cap : Int) (s : BufState T) : List (Ev T) :=
  if fifoInputSel cap s then
    Ev.closeInput :: List.replicate s.buffer.length Ev.send
  else
    Ev.send :: Ev.closeInput :: List.replicate (s.buffer.length - 1) Ev.send

/-! ### Basic lemmas about runs -/

theorem items_append {T : Type} (os1 os2 : List (Obs T)) :
    items (os1 ++ os2) = items os1 ++ items os2 := by
  induction os1 with
  | nil => rfl
  | cons o os ih =>
    cases o with
    | item x => simp [items, ih]
    | len n => simp [items, ih]

theorem runM_append {T S : Type}
    (step : S → Ev T → Option (S × Option (Obs T)))
    (s : S) (es1 es2 : List (Ev T)) :
    runM step s (es1 ++ es2) =
      (runM step s es1).bind fun p =>
        (runM step p.1 es2).map fun q => (q.1, p.2 ++ q.2) := by
  induction es1 generalizing s with
  | nil => simp [runM]
  | cons e es ih =>
    simp only [List.cons_append, runM]
    cases hstep : step s e with
    | none => rfl
    | some p =>
      simp only [Option.some_bind, List.append_eq]
      rw [ih p.1]
      cases hrun : runM step p.1 es with
      | none => rfl
      | some q =>
        simp only [Option.map_some', Option.some_bind]
        cases hrun2 : runM step q.1 es2 with
        | none => rfl
        | some r => simp [List.append_assoc]

/-- Items delivered plus items still buffered account exactly, in order,
for the initial buffer followed by the items accepted from the input
channel: one invariant of the bufferData loop. -/
theorem fifo_run_items {T : Type} (cap : Int) (s : BufState T)
    (es : List (Ev T)) (s2 : BufState T) (obs : List (Obs T))
    (h : runM (fifoStep cap) s es = some (s2, obs)) :
    items obs ++ s2.buffer = s.buffer ++ recvs es := by
  induction es generalizing s obs with
  | nil =>
    simp only [runM, Option.some.injEq, Prod.mk.injEq] at h
    obtain ⟨rfl, rfl⟩ := h
    simp [items, recvs]
  | cons e es ih =>
    simp only [runM, Option.bind_eq_some, Option.map_eq_some'] at h
    obtain ⟨p, hp, q, hq, hpq⟩ := h
    have hs2 : q.1 = s2 := congrArg Prod.fst hpq
    have hobs : p.2.toList ++ q.2 = obs := congrArg Prod.snd hpq
    subst hs2
    subst hobs
    cases e with
    | recv x =>
      simp only [fifoStep] at hp
      by_cases hsel : fifoInputSel cap s
      · rw [if_pos hsel] at hp
        obtain rfl : ({ s with buffer := s.buffer ++ [x] },
            (none : Option (Obs T))) = p := Option.some.inj hp
        have hinv := ih _ _ hq
        simp only [Option.toList, List.nil_append, recvs]
        rw [hinv]
        simp
      · rw [if_neg hsel] at hp
        cases hp
    | closeInput =>
      simp only [fifoStep] at hp
      by_cases hsel : fifoInputSel cap s
      · rw [if_pos hsel] at hp
        obtain rfl : ({ s with inputOpen := false },
            (none : Option (Obs T))) = p := Option.some.inj hp
        have hinv := ih _ _ hq
        simpa [Option.toList, recvs] using hinv
      · rw [if_neg hsel] at hp
        cases hp
    | send =>
      simp only [fifoStep] at hp
      cases hbuf : s.buffer with
      | nil =>
        rw [hbuf] at hp
        cases hp
      | cons x rest =>
        rw [hbuf] at hp
        obtain rfl : ({ s with buffer := rest }, some (Obs.item x)) = p :=
          Option.some.inj hp
        have hinv := ih _ _ hq
        simp only [Option.toList, List.singleton_append, items, recvs, hbuf,
          List.append_eq, List.nil_append]
        rw [List.cons_append, hinv]
        rfl
    | lenQ =>
      simp only [fifoStep] at hp
      obtain rfl : (s, some (Obs.len s.buffer.length)) = p :=
        Option.some.inj hp
      have hinv := ih _ _ hq
      simpa [Option.toList, items, recvs] using hinv

/-- With a bounded capacity at least 1, a run of the bufferData loop keeps
the buffer within capacity, and every length reply it sends is within
capacity. -/
theorem fifo_run_len_le {T : Type} (cap : Int) (hcap : 1 ≤ cap)
    (s : BufState T) (es : List (Ev T)) (s2 : BufState T) (obs : List (Obs T))
    (hlen : (s.buffer.length : Int) ≤ cap)
    (h : runM (fifoStep cap) s es = some (s2, obs)) :
    (s2.buffer.length : Int) ≤ cap ∧
      ∀ n, Obs.len n ∈ obs → (n : Int) ≤ cap := by
  induction es generalizing s obs with
  | nil =>
    simp only [runM, Option.some.injEq, Prod.mk.injEq] at h
    obtain ⟨rfl, rfl⟩ := h
    exact ⟨hlen, by simp⟩
  | cons e es ih =>
    simp only [runM, Option.bind_eq_some, Option.map_eq_some'] at h
    obtain ⟨p, hp, q, hq, hpq⟩ := h
    have hs2 : q.1 = s2 := congrArg Prod.fst hpq
    have hobs : p.2.toList ++ q.2 = obs := congrArg Prod.snd hpq
    subst hs2
    subst hobs
    cases e with
    | recv x =>
      simp only [fifoStep] at hp
      by_cases hsel : fifoInputSel cap s
      · rw [if_pos hsel] at hp
        obtain rfl : ({ s with buffer := s.buffer ++ [x] },
            (none : Option (Obs T))) = p := Option.some.inj hp
        simp only [fifoInputSel, Bool.and_eq_true, Bool.or_eq_true,
          beq_iff_eq, decide_eq_true_eq] at hsel
        have hroom : (s.buffer.length : Int) < cap := by
          rcases hsel.2 with hm1 | hlt
          · omega
          · exact hlt
        have hlen2 : (((s.buffer ++ [x]).length : Nat) : Int) ≤ cap := by
          simp only [List.length_append, List.length_cons, List.length_nil]
          push_cast
          omega
        have := ih _ _ hlen2 hq
        exact ⟨this.1, by simpa [Option.toList] using this.2⟩
      · rw [if_neg hsel] at hp
        cases hp
    | closeInput =>
      simp only [fifoStep] at hp
      by_cases hsel : fifoInputSel cap s
      · rw [if_pos hsel] at hp
        obtain rfl : ({ s with inputOpen := false },
            (none : Option (Obs T))) = p := Option.some.inj hp
        have := ih { s with inputOpen := false } q.2 hlen hq
        exact ⟨this.1, by simpa [Option.toList] using this.2⟩
      · rw [if_neg hsel] at hp
        cases hp
    | send =>
      simp only [fifoStep] at hp
      cases hbuf : s.buffer with
      | nil =>
        rw [hbuf] at hp
        cases hp
      | cons x rest =>
        rw [hbuf] at hp
        obtain rfl : ({ s with buffer := rest }, some (Obs.item x)) = p :=
          Option.some.inj hp
        have hlen2 : ((rest.length : Nat) : Int) ≤ cap := by
          rw [hbuf] at hlen
          simp only [List.length_cons] at hlen
          push_cast at hlen ⊢
          omega
        have := ih _ _ hlen2 hq
        refine ⟨this.1, ?_⟩
        intro n hn
        simp only [Option.toList, List.mem_append, List.mem_singleton] at hn
        rcases hn with hn | hn
        · cases hn
        · exact this.2 n hn
    | lenQ =>
      simp only [fifoStep] at hp
      obtain rfl : (s, some (Obs.len s.buffer.length)) = p :=
        Option.some.inj hp
      have := ih s q.2 hlen hq
      refine ⟨this.1, ?_⟩
      intro n hn
      simp only [Option.toList, List.mem_append, List.mem_singleton] at hn
      rcases hn with hn | hn
      · cases hn
        exact hlen
      · exact this.2 n hn

/-- Once the input channel is seen closed, sending the whole buffer out one
item at a time drains bufferData to the empty state, delivering exactly the
buffered items in order. -/
theorem fifo_drain {T : Type} (cap : Int) (b : List T) :
    runM (fifoStep cap) ⟨b, false⟩ (List.replicate b.length Ev.send) =
      some (⟨[], false⟩, b.map Obs.item) := by
  induction b with
  | nil => simp [runM]
  | cons x rest ih =>
    simp only [List.length_cons, List.replicate_succ, runM, List.map_cons]
    rw [show fifoStep cap ⟨x :: rest, false⟩ Ev.send =
      some (⟨rest, false⟩, some (Obs.item x)) from rfl]
    simp [ih, Option.toList]

/-- Same drain fact for the ringBufferData loop. -/
theorem ring_drain {T : Type} (cap : Int) (b : List T) :
    runM (ringStep cap) ⟨b, false⟩ (List.replicate b.length Ev.send) =
      some (⟨[], false⟩, b.map Obs.item) := by
  induction b with
  | nil => simp [runM]
  | cons x rest ih =>
    simp only [List.length_cons, List.replicate_succ, runM, List.map_cons]
    rw [show ringStep cap ⟨x :: rest, false⟩ Ev.send =
      some (⟨rest, false⟩, some (Obs.item x)) from rfl]
    simp [ih, Option.toList]

/-- While the input channel is open, ringBufferData accepts any sequence of
writes unconditionally, folding them into the buffer with ringPush. -/
theorem ring_recvAll {T : Type} (cap : Int) (b : List T) (xs : List T) :
    runM (ringStep cap) ⟨b, true⟩ (xs.map Ev.recv) =
      some (⟨xs.foldl (ringPush cap) b, true⟩, []) := by
  induction xs generalizing b with
  | nil => simp [runM]
  | cons x xs ih =>
    simp only [List.map_cons, runM, List.foldl_cons]
    rw [show ringStep cap ⟨b, true⟩ (Ev.recv x) =
      some (⟨ringPush cap b x, true⟩, none) from rfl]
    simp [ih, Option.toList]

/-- What folding ringPush over a write sequence leaves in the buffer: the
last `cap` items of the initial buffer followed by the writes (all of them
when they fit). -/
theorem ringPush_foldl {T : Type} (cap : Nat) (hcap : 1 ≤ cap)
    (b : List T) (xs : List T) (hb : b.length ≤ cap) :
    xs.foldl (ringPush (cap : Int)) b =
      (b ++ xs).drop (b.length + xs.length - cap) := by
  induction xs generalizing b with
  | nil =>
    simp only [List.foldl_nil, List.append_nil, List.length_nil, Nat.add_zero]
    rw [Nat.sub_eq_zero_of_le hb, List.drop_zero]
  | cons x xs ih =>
    simp only [List.foldl_cons, List.length_cons]
    rcases Nat.lt_or_ge b.length cap with hlt | hge
    · have hpush : ringPush (cap : Int) b x = b ++ [x] := by
        simp only [ringPush]
        rw [if_neg]
        simp only [List.length_append, List.length_cons, List.length_nil]
        push_cast
        omega
      rw [hpush, ih (b ++ [x]) (by simp; omega)]
      have harr : (b ++ [x]).length + xs.length - cap =
          b.length + (xs.length + 1) - cap := by
        simp only [List.length_append, List.length_cons, List.length_nil]
        omega
      rw [harr, List.append_assoc]
      rfl
    · have heq : b.length = cap := Nat.le_antisymm hb hge
      cases b with
      | nil =>
        exfalso
        simp only [List.length_nil] at heq
        omega
      | cons y bt =>
        simp only [List.length_cons] at heq
        have hpush : ringPush (cap : Int) (y :: bt) x = bt ++ [x] := by
          simp only [ringPush]
          rw [if_pos]
          · rfl
          · simp only [List.cons_append, List.length_cons, List.length_append,
              List.length_nil]
            push_cast
            omega
        have hb2 : (bt ++ [x]).length ≤ cap := by
          simp only [List.length_append, List.length_cons, List.length_nil]
          omega
        have h1 : (bt ++ [x]).length + xs.length - cap = xs.length := by
          simp only [List.length_append, List.length_cons, List.length_nil]
          omega
        have h2 : (y :: bt).length + (xs.length + 1) - cap = xs.length + 1 := by
          simp only [List.length_cons]
          omega
        rw [hpush, ih (bt ++ [x]) hb2, h1, h2]
        rw [show (y :: bt) ++ x :: xs = y :: (bt ++ x :: xs) from rfl,
          List.drop_succ_cons, List.append_assoc]
        rfl

/-- Each oneBufferData loop iteration simulates the corresponding
ringBufferData iteration at capacity 1 exactly: same selectability, same
observation, and states related by oneAbs. -/
theorem one_step_ring {T : Type} (s : OneState T) (e : Ev T) :
    (oneStep s e).map (fun p => (oneAbs p.1, p.2)) =
      ringStep 1 (oneAbs s) e := by
  cases e with
  | recv x =>
    cases hs : s.slot <;> cases ho : s.inputOpen <;>
      simp [oneStep, ringStep, oneAbs, ringPush, Option.toList, hs, ho]
  | closeInput =>
    cases ho : s.inputOpen <;>
      simp [oneStep, ringStep, oneAbs, ho]
  | send =>
    cases hs : s.slot <;>
      simp [oneStep, ringStep, oneAbs, Option.toList, hs]
  | lenQ =>
    cases hs : s.slot <;>
      simp [oneStep, ringStep, oneAbs, Option.toList, hs]

/-- Whole runs of oneBufferData and of ringBufferData at capacity 1 agree:
same accepted schedulings, same observations, states related by oneAbs. -/
theorem one_run_ring {T : Type} (s : OneState T) (es : List (Ev T)) :
    (runM oneStep s es).map (fun p => (oneAbs p.1, p.2)) =
      runM (ringStep 1) (oneAbs s) es := by
  induction es generalizing s with
  | nil => simp [runM]
  | cons e es ih =>
    simp only [runM]
    rw [← one_step_ring]
    cases hstep : oneStep s e with
    | none => rfl
    | some p =>
      simp only [Option.map_some', Option.some_bind]
      rw [← ih p.1]
      cases hrun : runM oneStep p.1 es with
      | none => rfl
      | some q => simp

/-! ### Claim theorems -/

/-- C1: for every feasible scheduling of the Blocking-FIFO coordinator that
runs to end-of-stream (loop exit, after which the output channel is
closed), the items delivered on the output channel are exactly the items
accepted from the input channel, in the same order — for any capacity,
bounded or unbounded. -/
theorem claim_C1_fifo_order {T : Type} (cap : Int) (es : List (Ev T))
    (obs : List (Obs T)) (ex : ExitActions)
    (h : fifoRunToExit cap bufInit es = some (obs, ex)) :
    items obs = recvs es := by
  unfold fifoRunToExit at h
  cases hrun : runM (fifoStep cap) bufInit es with
  | none =>
    rw [hrun] at h
    cases h
  | some p =>
    rw [hrun, Option.some_bind] at h
    by_cases hg : fifoGuard cap p.1
    · rw [if_pos hg] at h
      cases h
    · rw [if_neg hg] at h
      have hobs : p.2 = obs := congrArg Prod.fst (Option.some.inj h)
      have hempty : p.1.buffer = [] := by
        rcases hb : p.1.buffer with _ | ⟨y, ys⟩
        · rfl
        · exact absurd (by simp [fifoGuard, outputSel, hb]) hg
      have hinv := fifo_run_items cap bufInit es p.1 p.2 (by rw [hrun])
      rw [hempty] at hinv
      rw [← hobs]
      simpa [bufInit] using hinv

/-- C1 witness: a bounded run (capacity 2, with an intermediate drain
forced by backpressure) and an unbounded run, both delivering exactly the
written items in order. -/
theorem claim_C1_fifo_order_witness :
    fifoRunToExit 2 bufInit [Ev.recv 10, Ev.recv 20, Ev.send, Ev.send,
        Ev.recv 30, Ev.closeInput, Ev.send]
      = some ([Obs.item 10, Obs.item 20, Obs.item 30], ⟨true, true⟩) ∧
    items [Obs.item 10, Obs.item 20, Obs.item 30] =
      recvs [Ev.recv 10, Ev.recv 20, Ev.send, Ev.send,
        Ev.recv 30, Ev.closeInput, Ev.send] ∧
    fifoRunToExit (-1) bufInit [Ev.recv 1, Ev.recv 2, Ev.recv 3,
        Ev.closeInput, Ev.send, Ev.send, Ev.send]
      = some ([Obs.item 1, Obs.item 2, Obs.item 3], ⟨true, true⟩) ∧
    items [Obs.item 1, Obs.item 2, Obs.item 3] =
      recvs [Ev.recv 1, Ev.recv 2, Ev.recv 3,
        Ev.closeInput, Ev.send, Ev.send, Ev.send] :=
  ⟨by decide, claim_C1_fifo_order 2 _ _ ⟨true, true⟩ (by decide), by decide,
    claim_C1_fifo_order (-1) _ _ ⟨true, true⟩ (by decide)⟩

/-- C2: for the Blocking-FIFO coordinator with capacity at least 1, every
reachable state keeps the buffer length between 0 and the capacity, every
length reply (what Len() returns) is at most the capacity, and at a full
buffer the input case is not selectable — a write is not accepted until a
read removes an item. -/
theorem claim_C2_capacity_bound {T : Type} (cap : Int) (hcap : 1 ≤ cap)
    (es : List (Ev T)) (s : BufState T) (obs : List (Obs T))
    (h : runM (fifoStep cap) bufInit es = some (s, obs)) :
    (0 ≤ (s.buffer.length : Int) ∧ (s.buffer.length : Int) ≤ cap) ∧
    (∀ n, Obs.len n ∈ obs → (n : Int) ≤ cap) ∧
    ((s.buffer.length : Int) = cap → ∀ x, fifoStep cap s (Ev.recv x) = none) ∧
    ((s.buffer.length : Int) = cap → ∀ x y rest, s.buffer = y :: rest →
      fifoStep cap ⟨rest, true⟩ (Ev.recv x)
        = some (⟨rest ++ [x], true⟩, none)) := by
  have hinv := fifo_run_len_le cap hcap bufInit es s obs (by simp [bufInit]; omega) h
  refine ⟨⟨by omega, hinv.1⟩, hinv.2, ?_, ?_⟩
  · intro hfull x
    simp only [fifoStep]
    rw [if_neg]
    simp only [fifoInputSel, Bool.and_eq_true, Bool.or_eq_true, beq_iff_eq,
      decide_eq_true_eq, not_and, not_or]
    intro _
    constructor
    · omega
    · omega
  · intro hfull x y rest hbuf
    have hrest : ((rest.length : Nat) : Int) < cap := by
      rw [hbuf] at hfull
      simp only [List.length_cons] at hfull
      push_cast at hfull ⊢
      omega
    simp only [fifoStep]
    rw [if_pos]
    simp only [fifoInputSel, Bool.true_and, Bool.or_eq_true,
      decide_eq_true_eq]
    right
    exact hrest

/-- C2 witness: capacity 2, two writes and a length query. -/
theorem claim_C2_capacity_bound_witness :
    (1 : Int) ≤ 2 ∧
    runM (fifoStep 2) bufInit [Ev.recv 5, Ev.recv 6, Ev.lenQ]
      = some (⟨[5, 6], true⟩, [Obs.len 2]) ∧
    ((0 ≤ (([5, 6] : List Nat).length : Int) ∧
        ((([5, 6] : List Nat).length : Int)) ≤ 2) ∧
      (∀ n, Obs.len n ∈ ([Obs.len 2] : List (Obs Nat)) → (n : Int) ≤ 2) ∧
      (((([5, 6] : List Nat).length : Int)) = 2 →
        ∀ x, fifoStep 2 (⟨[5, 6], true⟩ : BufState Nat) (Ev.recv x) = none) ∧
      (((([5, 6] : List Nat).length : Int)) = 2 →
        ∀ x y rest, ([5, 6] : List Nat) = y :: rest →
          fifoStep 2 (⟨rest, true⟩ : BufState Nat) (Ev.recv x)
            = some (⟨rest ++ [x], true⟩, none))) :=
  ⟨by decide, by decide,
    claim_C2_capacity_bound 2 (by decide) [Ev.recv 5, Ev.recv 6, Ev.lenQ]
      ⟨[5, 6], true⟩ [Obs.len 2] (by decide)⟩

/-- After closeOnce has fired and the input channel is closed, a further
Close call is a no-op. -/
theorem closeN_after (n : Nat) : closeN n ⟨true, true⟩ = some ⟨true, true⟩ := by
  induction n with
  | zero => rfl
  | succ m ih =>
    show (closeCQ ⟨true, true⟩).bind (closeN m) = some ⟨true, true⟩
    rw [show closeCQ ⟨true, true⟩ = some ⟨true, true⟩ from rfl]
    simpa using ih

/-- C5: calling Close any number of times (at least once) on a fresh queue
never panics, ends with the input channel closed exactly once, and has the
same effect as calling Close exactly once. -/
theorem claim_C5_close_idempotent (n : Nat) (hn : 1 ≤ n) :
    closeN n ⟨false, false⟩ = some ⟨true, true⟩ ∧
    closeN n ⟨false, false⟩ = closeN 1 ⟨false, false⟩ := by
  obtain ⟨m, rfl⟩ := Nat.exists_eq_add_of_le hn
  have h1 : closeN (1 + m) ⟨false, false⟩ = some ⟨true, true⟩ := by
    rw [Nat.add_comm]
    show (closeCQ ⟨false, false⟩).bind (closeN m) = some ⟨true, true⟩
    rw [show closeCQ ⟨false, false⟩ = some ⟨true, true⟩ from rfl]
    simpa using closeN_after m
  exact ⟨h1, by rw [h1]; rfl⟩

/-- C5 witness: three Close calls behave like one. -/
theorem claim_C5_close_idempotent_witness :
    1 ≤ 3 ∧
    (closeN 3 ⟨false, false⟩ = some ⟨true, true⟩ ∧
      closeN 3 ⟨false, false⟩ = closeN 1 ⟨false, false⟩) :=
  ⟨by decide, claim_C5_close_idempotent 3 (by decide)⟩

/-- C6: any capacity below 1 given to WithCapacity is stored as -1
(unbounded) and reported as -1 by Cap(), both for New and for NewRing;
construction is total — there is no rejection path. -/
theorem claim_C6_capacity_normalized (n : Int) (hn : n < 1) (k : Nat) :
    capOf (new k [withCapacity n]).1 = -1 ∧
    capOf (newRing k [withCapacity n]).1 = -1 := by
  constructor
  · simp [new, capOf, applyOpts, withCapacity, if_pos hn]
  · simp [newRing, new, capOf, applyOpts, withCapacity, withInput, if_pos hn]

/-- C6 witness: capacity 0 and capacity -7 both construct unbounded
queues. -/
theorem claim_C6_capacity_normalized_witness :
    ((0 : Int) < 1 ∧
      (capOf (new 0 [withCapacity 0]).1 = -1 ∧
        capOf (newRing 0 [withCapacity 0]).1 = -1)) ∧
    ((-7 : Int) < 1 ∧
      (capOf (new 0 [withCapacity (-7)]).1 = -1 ∧
        capOf (newRing 0 [withCapacity (-7)]).1 = -1)) :=
  ⟨⟨by decide, claim_C6_capacity_normalized 0 (by decide) 0⟩,
    ⟨by decide, claim_C6_capacity_normalized (-7) (by decide) 0⟩⟩

/-- C3: for the Ring coordinator with capacity C > 1, a scheduling that
writes C+k items (k > 0) with no intervening reads, closes the input, and
then drains, is feasible and delivers exactly the last C items written, in
write order: the k oldest items were discarded, oldest first. -/
theorem claim_C3_ring_eviction {T : Type} (cap k : Nat) (hcap : 2 ≤ cap)
    (hk : 1 ≤ k) (xs : List T) (hlen : xs.length = cap + k) :
    runM (ringStep (cap : Int)) bufInit
      (xs.map Ev.recv ++ [Ev.closeInput] ++ List.replicate cap Ev.send)
      = some (⟨[], false⟩, (xs.drop k).map Obs.item) := by
  have hfold : xs.foldl (ringPush (cap : Int)) [] = xs.drop k := by
    have := ringPush_foldl cap (by omega) [] xs (by simp)
    simpa [hlen, Nat.add_sub_cancel_left] using this
  have hdroplen : (xs.drop k).length = cap := by
    simp [List.length_drop, hlen]
  rw [runM_append, runM_append]
  rw [show (bufInit : BufState T) = ⟨[], true⟩ from rfl, ring_recvAll]
  simp only [Option.some_bind]
  rw [show runM (ringStep (cap : Int)) (⟨xs.foldl (ringPush (cap : Int)) [], true⟩ : BufState T)
      [Ev.closeInput]
      = some (⟨xs.foldl (ringPush (cap : Int)) [], false⟩, []) from rfl]
  simp only [Option.map_some', Option.some_bind]
  rw [hfold, ← hdroplen, ring_drain]
  simp

/-- C3 witness: capacity 2, three writes 1,2,3; the oldest item 1 is
discarded and draining yields 2,3. -/
theorem claim_C3_ring_eviction_witness :
    2 ≤ 2 ∧ 1 ≤ 1 ∧ ([1, 2, 3] : List Nat).length = 2 + 1 ∧
    runM (ringStep ((2 : Nat) : Int)) bufInit
      (([1, 2, 3] : List Nat).map Ev.recv ++ [Ev.closeInput] ++
        List.replicate 2 Ev.send)
      = some (⟨[], false⟩, (([1, 2, 3] : List Nat).drop 1).map Obs.item) :=
  ⟨by decide, by decide, by decide,
    claim_C3_ring_eviction 2 1 (by decide) (by decide) [1, 2, 3] (by decide)⟩

/-- C4: oneBufferData (the Ring-of-one coordinator) and ringBufferData at
capacity 1 are observationally indistinguishable: on every scheduling they
accept the same events, produce the same observations, reach states related
by the slot/deque abstraction, and their loop guards agree, so they also
terminate identically. -/
theorem claim_C4_ring_of_one_equiv {T : Type} (es : List (Ev T)) :
    (runM oneStep oneInit es).map (fun p => (oneAbs p.1, p.2)) =
      runM (ringStep 1) bufInit es ∧
    ∀ s : OneState T, oneGuard s = ringGuard (oneAbs s) := by
  constructor
  · have := one_run_ring (oneInit : OneState T) es
    simpa [oneAbs, oneInit, bufInit, Option.toList] using this
  · intro s
    cases hs : s.slot <;>
      simp [oneGuard, ringGuard, oneAbs, outputSel, Option.toList, hs]

/-- C7: NewRing with any capacity below 1 constructs an unbounded
Blocking-FIFO queue: the bufferData policy with capacity -1, whose input
case is selectable exactly while the input channel is open (a writer is
never blocked for backpressure) and whose completed runs deliver every
accepted item (nothing is ever evicted). -/
theorem claim_C7_ring_degrades_to_fifo {T : Type} (n : Int) (hn : n < 1)
    (k : Nat) :
    (newRing k [withCapacity n]).1.policy = Policy.fifo ∧
    (newRing k [withCapacity n]).1.capacity = -1 ∧
    (∀ s : BufState T, fifoInputSel (-1) s = s.inputOpen) ∧
    (∀ (es : List (Ev T)) (s : BufState T) (obs : List (Obs T)),
      runM (fifoStep (-1)) bufInit es = some (s, obs) → s.buffer = [] →
        items obs = recvs es) := by
  refine ⟨?_, ?_, ?_, ?_⟩
  · simp [newRing, new, applyOpts, withCapacity, withInput, if_pos hn]
  · simp [newRing, new, applyOpts, withCapacity, withInput, if_pos hn]
  · intro s
    simp [fifoInputSel]
  · intro es s obs h hempty
    have hinv := fifo_run_items (-1) bufInit es s obs h
    rw [hempty] at hinv
    simpa [bufInit] using hinv

/-- C7 witness: NewRing at capacity -3. -/
theorem claim_C7_ring_degrades_to_fifo_witness :
    (-3 : Int) < 1 ∧
    ((newRing 0 [withCapacity (-3)]).1.policy = Policy.fifo ∧
      (newRing 0 [withCapacity (-3)]).1.capacity = -1 ∧
      (∀ s : BufState Nat, fifoInputSel (-1) s = s.inputOpen) ∧
      (∀ (es : List (Ev Nat)) (s : BufState Nat) (obs : List (Obs Nat)),
        runM (fifoStep (-1)) bufInit es = some (s, obs) → s.buffer = [] →
          items obs = recvs es)) :=
  ⟨by decide, claim_C7_ring_degrades_to_fifo (-3) (by decide) 0⟩

/-- C8: evaluating the constructors at a caller-supplied egress endpoint.
New honors it, but NewRing with the default (unbounded) capacity delegates
through `New(WithInput[T](cq.input))`, forwarding only the input, so the
returned handle produces to a freshly allocated output channel instead of
the supplied one — the supplied endpoint is silently discarded, never
written to and never closed, contradicting WithOutput's documented
contract. -/
theorem claim_C8_with_output_dropped :
    (new 0 [withOutput (some (Chan.supplied 5))]).1.output
        = Chan.supplied 5 ∧
    (newRing 0 [withOutput (some (Chan.supplied 5))]).1.output
        = Chan.fresh 3 ∧
    (newRing 0 [withOutput (some (Chan.supplied 5))]).1.output
        ≠ Chan.supplied 5 := by
  decide

/-- C9: from any reachable bufferData state with the input channel still
open, the scheduling induced by Shutdown (Close, then drain the output to
completion) is feasible and runs the coordinator to loop exit: every item
remaining in the buffer is delivered on the output channel, the loop guard
goes false, and the coordinator then closes both the output channel and the
length channel. -/
theorem claim_C9_shutdown_terminates {T : Type} (cap : Int)
    (hcap : cap = -1 ∨ 1 ≤ cap) (es : List (Ev T)) (s : BufState T)
    (obs0 : List (Obs T))
    (hreach : runM (fifoStep cap) bufInit es = some (s, obs0))
    (hopen : s.inputOpen = true) :
    fifoRunToExit cap s (shutdownEvents cap s)
      = some (s.buffer.map Obs.item, ⟨true, true⟩) := by
  by_cases hsel : fifoInputSel cap s
  · unfold fifoRunToExit shutdownEvents
    rw [if_pos hsel]
    show (runM (fifoStep cap) s (Ev.closeInput :: _)).bind _ = _
    rw [show runM (fifoStep cap) s
        (Ev.closeInput :: List.replicate s.buffer.length Ev.send)
        = (fifoStep cap s Ev.closeInput).bind fun p =>
            (runM (fifoStep cap) p.1
              (List.replicate s.buffer.length Ev.send)).map
              fun q => (q.1, p.2.toList ++ q.2) from rfl]
    rw [show fifoStep cap s Ev.closeInput
        = some ({ s with inputOpen := false }, none) from by
      simp only [fifoStep]
      rw [if_pos hsel]]
    simp only [Option.some_bind]
    rw [show ({ s with inputOpen := false } : BufState T)
        = ⟨s.buffer, false⟩ from rfl, fifo_drain]
    simp [fifoGuard, fifoInputSel, outputSel]
  · -- Backpressure holds: the buffer is at capacity, so it is nonempty;
    -- the drain loop takes one item first, re-enabling the input case.
    have hcap1 : 1 ≤ cap := by
      rcases hcap with hm | h1
      · exfalso
        apply hsel
        simp [fifoInputSel, hopen, hm]
      · exact h1
    have hlen := (fifo_run_len_le cap hcap1 bufInit es s obs0
      (by simp [bufInit]; omega) hreach).1
    have hfull : ¬ ((s.buffer.length : Int) < cap) := by
      intro hlt
      apply hsel
      simp [fifoInputSel, hopen]
      right
      exact hlt
    cases hbuf : s.buffer with
    | nil =>
      exfalso
      rw [hbuf] at hfull
      simp at hfull
      omega
    | cons x rest =>
      unfold fifoRunToExit shutdownEvents
      rw [if_neg hsel]
      rw [show runM (fifoStep cap) s (Ev.send :: Ev.closeInput ::
          List.replicate (s.buffer.length - 1) Ev.send)
          = (fifoStep cap s Ev.send).bind fun p =>
              (runM (fifoStep cap) p.1 (Ev.closeInput ::
                List.replicate (s.buffer.length - 1) Ev.send)).map
                fun q => (q.1, p.2.toList ++ q.2) from rfl]
      rw [show fifoStep cap s Ev.send
          = some ({ s with buffer := rest }, some (Obs.item x)) from by
        simp only [fifoStep]
        rw [hbuf]]
      simp only [Option.some_bind]
      have hsel2 : fifoInputSel cap ({ s with buffer := rest } : BufState T)
          = true := by
        simp only [fifoInputSel, hopen, Bool.true_and, Bool.or_eq_true,
          decide_eq_true_eq]
        right
        rw [hbuf] at hlen
        simp only [List.length_cons] at hlen
        push_cast at hlen ⊢
        omega
      rw [show runM (fifoStep cap) ({ s with buffer := rest } : BufState T)
          (Ev.closeInput :: List.replicate (s.buffer.length - 1) Ev.send)
          = (fifoStep cap ({ s with buffer := rest }) Ev.closeInput).bind
              fun p => (runM (fifoStep cap) p.1
                (List.replicate (s.buffer.length - 1) Ev.send)).map
                fun q => (q.1, p.2.toList ++ q.2) from rfl]
      rw [show fifoStep cap ({ s with buffer := rest } : BufState T)
          Ev.closeInput
          = some ({ s with buffer := rest, inputOpen := false }, none) from by
        simp only [fifoStep]
        rw [if_pos hsel2]]
      simp only [Option.some_bind]
      rw [show s.buffer.length - 1 = rest.length from by rw [hbuf]; rfl]
      rw [show ({ s with buffer := rest, inputOpen := false } : BufState T)
          = ⟨rest, false⟩ from rfl, fifo_drain]
      simp [fifoGuard, fifoInputSel, outputSel, hbuf, Option.toList]

/-- C9 witness: capacity 1 with one buffered item (backpressure active);
Shutdown drains the item and the coordinator exits, closing both
channels. -/
theorem claim_C9_shutdown_terminates_witness :
    ((1 : Int) = -1 ∨ 1 ≤ (1 : Int)) ∧
    runM (fifoStep 1) bufInit [Ev.recv 7] = some (⟨[7], true⟩, []) ∧
    (⟨[7], true⟩ : BufState Nat).inputOpen = true ∧
    fifoRunToExit 1 (⟨[7], true⟩ : BufState Nat)
      (shutdownEvents 1 ⟨[7], true⟩)
      = some (([7] : List Nat).map Obs.item, ⟨true, true⟩) :=
  ⟨by decide, by decide, by decide,
    claim_C9_shutdown_terminates 1 (by decide) [Ev.recv 7] ⟨[7], true⟩ []
      (by decide) (by decide)⟩

/-- C10: a run that ends in the terminal condition (input channel closed
and buffer empty) is a run to loop exit: the coordinator closes the output
channel and the length channel, and a Len() call made after that receives
from the closed length channel and returns 0 immediately. -/
theorem claim_C10_len_after_exit {T : Type} (cap : Int) (es : List (Ev T))
    (s : BufState T) (obs : List (Obs T))
    (h : runM (fifoStep cap) bufInit es = some (s, obs))
    (hclosed : s.inputOpen = false) (hempty : s.buffer = []) :
    fifoRunToExit cap bufInit es = some (obs, ⟨true, true⟩) ∧
    lenAfterExit ⟨true, true⟩ = some 0 := by
  constructor
  · unfold fifoRunToExit
    rw [h, Option.some_bind, if_neg]
    simp [fifoGuard, fifoInputSel, outputSel, hclosed, hempty]
  · rfl

/-- C10 witness: one item written, delivered, then close; Len() after the
exit returns 0. -/
theorem claim_C10_len_after_exit_witness :
    runM (fifoStep (-1)) bufInit [Ev.recv 4, Ev.send, Ev.closeInput]
      = some (⟨[], false⟩, [Obs.item 4]) ∧
    (⟨[], false⟩ : BufState Nat).inputOpen = false ∧
    (⟨[], false⟩ : BufState Nat).buffer = [] ∧
    (fifoRunToExit (-1) bufInit [Ev.recv 4, Ev.send, Ev.closeInput]
        = some ([Obs.item 4], ⟨true, true⟩) ∧
      lenAfterExit ⟨true, true⟩ = some 0) :=
  ⟨by decide, by decide, by decide,
    claim_C10_len_after_exit (-1) [Ev.recv 4, Ev.send, Ev.closeInput]
      ⟨[], false⟩ [Obs.item 4] (by decide) (by decide) (by decide)⟩

end ChannelQueue
